import Mathlib

/-!
Verification of the appointment-scheduling core (`scheduler.ts`).

Shallow embedding conventions:
* a JavaScript `Date` is its epoch value `Date.getTime()` in milliseconds,
  modelled as `Int`;
* `setUTCHours(0,0,0,0)` clears the time-of-day within the UTC calendar day,
  i.e. subtracts `t % 86400000` (Euclidean remainder, always in `[0, 86400000)`);
* `setUTCDate(n)` with an out-of-range `n` rolls over to the neighbouring
  month/year by exact whole-day arithmetic, so moving the calendar date back
  `k` days is subtracting `k * 86400000`;
* `Array.prototype.sort` (stable, ES2019+) with comparator
  `(a, b) => key(a) - key(b)` is `List.insertionSort` (also stable) on `≤` of
  the key — any two stable sorts under the same comparator agree exactly;
* a `Map` keyed by ISO strings of day starts is an insertion-ordered
  association list keyed by the day-start instant (ISO strings of distinct
  instants are distinct);
* loops that push into a result array become structural recursion; `break`
  becomes returning `[]` for the rest of the traversal.
-/

/-- Enumerated appointment status (`models/appointment`). -/
inductive AppointmentStatus where
  | UPCOMING
  | OCCURRED
  | LATE_CANCELLATION
  | CANCELLED
  | NO_SHOW
  | RE_SCHEDULED
deriving DecidableEq, Repr

/-- An appointment record; `scheduledFor` is an epoch instant in ms. -/
structure Appointment where
  id : String
  patientId : String
  clinicianId : String
  scheduledFor : Int
  appointmentType : String
  status : AppointmentStatus
deriving DecidableEq, Repr

/-- An open availability slot; `date` is its start instant in ms, `length`
its duration in minutes. -/
structure AvailableAppointmentSlot where
  id : String
  clinicianId : String
  date : Int
  length : Int
deriving DecidableEq, Repr

/-- A clinician record (`models/clinician`). -/
structure Clinician where
  id : String
  firstName : String
  lastName : String
  clinicianType : String
  states : List String
  insurances : List String
  maxDailyAppointments : Int
  maxWeeklyAppointments : Int
  availableSlots : List AvailableAppointmentSlot
  appointments : List Appointment
deriving DecidableEq, Repr

/-- A patient record (`models/patient`). -/
structure Patient where
  id : String
  firstName : String
  lastName : String
  state : String
  insurance : String
deriving DecidableEq, Repr

/-- Output pair of the assessment search. -/
structure AssessmentSlotPair where
  session1 : Int
  session2 : Int
deriving DecidableEq, Repr

/-- Per-clinician result entry of `findAssessmentSlots`. -/
structure ClinicianAvailability where
  clinician : Clinician
  availableSlotPairs : List AssessmentSlotPair
deriving DecidableEq, Repr

/-- Per-clinician result entry of `findTherapySlots`. -/
structure TherapistAvailability where
  clinician : Clinician
  availableSlots : List Int
deriving DecidableEq, Repr

/-- Milliseconds in a day. -/
def dayMs : Int := 24 * 60 * 60 * 1000

/-- Milliseconds in seven days (`sevenDaysMs` in `findAssessmentSlots`). -/
def sevenDaysMs : Int := 7 * dayMs

/-- `getStartOfDay`: midnight UTC of the calendar day containing `date`
(`d.setUTCHours(0,0,0,0)`). -/
def getStartOfDay (date : Int) : Int := date - date % dayMs

/-- `d.getUTCDay()`: day of week, 0 = Sunday … 6 = Saturday; epoch day 0
(1970-01-01) was a Thursday (= 4). -/
def getUTCDay (date : Int) : Int := (date / dayMs + 4) % 7

/-- `getStartOfWeek`: Monday midnight UTC of the week containing `date`.
The source computes `diff = getUTCDate() - day + (day === 0 ? -6 : 1)` and
applies `setUTCDate(diff); setUTCHours(0,0,0,0)`: the calendar date moves back
`day === 0 ? 6 : day - 1` days (with month/year rollover normalised by
`setUTCDate`) and the time-of-day is cleared. -/
def getStartOfWeek (date : Int) : Int :=
  let day := getUTCDay date
  getStartOfDay date - (if day = 0 then 6 else day - 1) * dayMs

/-- Membership test in `COUNTABLE_STATUSES = [UPCOMING, OCCURRED,
LATE_CANCELLATION]`. -/
def isCountableStatus : AppointmentStatus → Bool
  | .UPCOMING => true
  | .OCCURRED => true
  | .LATE_CANCELLATION => true
  | _ => false

/-- `getAppointmentsOnDay`: capacity-consuming appointments of `clinician`
inside the day window `[dayStart, dayStart + 24h)` of `date`. -/
def getAppointmentsOnDay (clinician : Clinician) (date : Int) : Nat :=
  let dayStart := getStartOfDay date
  let dayEnd := dayStart + dayMs
  (clinician.appointments.filter fun apt =>
    dayStart ≤ apt.scheduledFor ∧ apt.scheduledFor < dayEnd
      ∧ isCountableStatus apt.status = true).length

/-- `getAppointmentsInWeek`: capacity-consuming appointments of `clinician`
inside the week window `[weekStart, weekStart + 7*24h)` of `date`. -/
def getAppointmentsInWeek (clinician : Clinician) (date : Int) : Nat :=
  let weekStart := getStartOfWeek date
  let weekEnd := weekStart + 7 * dayMs
  (clinician.appointments.filter fun apt =>
    weekStart ≤ apt.scheduledFor ∧ apt.scheduledFor < weekEnd
      ∧ isCountableStatus apt.status = true).length

/-- `canAccommodateAppointments`: group the proposed `dates` by calendar day
and check each day's `existing + group size ≤ maxDailyAppointments`, then the
same per calendar week against `maxWeeklyAppointments`.  The source iterates
a `Map` built from `dates` (distinct day/week keys, each with its occurrence
count) and returns `false` on the first violated bound; the boolean outcome
equals checking every distinct key.  The representative date passed back to
the counters is the key itself. -/
def canAccommodateAppointments (clinician : Clinician) (dates : List Int) : Bool :=
  (((dates.map getStartOfDay).dedup).all fun dayKey =>
    (getAppointmentsOnDay clinician dayKey : Int)
        + (dates.countP fun d => getStartOfDay d = dayKey)
      ≤ clinician.maxDailyAppointments)
  && (((dates.map getStartOfWeek).dedup).all fun weekKey =>
    (getAppointmentsInWeek clinician weekKey : Int)
        + (dates.countP fun d => getStartOfWeek d = weekKey)
      ≤ clinician.maxWeeklyAppointments)

/-- `isClinicianEligible`: clinician serves the patient's state and accepts
the patient's insurance. -/
def isClinicianEligible (clinician : Clinician) (patient : Patient) : Bool :=
  clinician.states.contains patient.state
    && clinician.insurances.contains patient.insurance

/-- Comparison used by `optimizeSlots`' `sort((a, b) => a.end - b.end)`:
intervals ordered by end time. -/
def endLe (a b : Int × Int) : Prop := a.2 ≤ b.2

instance : DecidableRel endLe := fun a b => Int.decLe a.2 b.2

instance : IsTotal (Int × Int) endLe := ⟨fun a b => Int.le_total a.2 b.2⟩

instance : IsTrans (Int × Int) endLe := ⟨fun _ _ _ h h' => le_trans h h'⟩

/-- Test `itv.start.getTime() >= lastEnd` where `lastEnd` starts at
`-Infinity` (`none`). -/
def leOpt : Option Int → Int → Bool
  | none, _ => true
  | some e, s => e ≤ s

/-- Greedy scan of `optimizeSlots`: keep an interval whenever its start is at
or after the end of the last kept interval. -/
def selectGreedy : List (Int × Int) → Option Int → List Int
  | [], _ => []
  | itv :: rest, lastEnd =>
    if leOpt lastEnd itv.1 then itv.1 :: selectGreedy rest (some itv.2)
    else selectGreedy rest lastEnd

/-- `optimizeSlots(dates, durationMinutes)`: build `[start, start+duration)`
intervals, sort by end time ascending, and greedily keep non-overlapping
starts. -/
def optimizeSlots (dates : List Int) (durationMinutes : Int) : List Int :=
  if dates.isEmpty then []
  else
    selectGreedy
      (List.insertionSort endLe
        (dates.map fun d => (d, d + durationMinutes * 60000)))
      none

/-- One step of the `Map`-building loop of the day-grouping in both finders:
append slot `s` to the entry of key `k`, creating the entry at the end when
absent (JS `Map` insertion order). -/
def addSlotToDayGroup : List (Int × List Int) → Int → Int → List (Int × List Int)
  | [], k, s => [(k, [s])]
  | (k', ss) :: rest, k, s =>
    if k' = k then (k', ss ++ [s]) :: rest
    else (k', ss) :: addSlotToDayGroup rest k s

/-- `slotsByDay`: group slot start instants by their calendar day, keyed by
the day-start instant, in insertion order. -/
def groupSlotsByDay (slots : List Int) : List (Int × List Int) :=
  slots.foldl (fun acc s => addSlotToDayGroup acc (getStartOfDay s) s) []

/-- The clinician's 90-minute slot starts
(`availableSlots.filter(length === 90).map(date)`). -/
def assessmentSlotDates (clinician : Clinician) : List Int :=
  (clinician.availableSlots.filter fun slot => slot.length = 90).map
    fun slot => slot.date

/-- The clinician's 90-minute slot starts, sorted ascending
(`assessmentSlots` in `findAssessmentSlots`). -/
def assessmentSlotDatesSorted (clinician : Clinician) : List Int :=
  List.insertionSort (· ≤ ·) (assessmentSlotDates clinician)

/-- `eligibleDays`: day groups of the sorted 90-minute slots that still have
room for at least one more appointment. -/
def eligibleDaysOf (clinician : Clinician) : List (Int × List Int) :=
  (groupSlotsByDay (assessmentSlotDatesSorted clinician)).filter fun g =>
    (getAppointmentsOnDay clinician g.1 : Int) + 1 ≤ clinician.maxDailyAppointments

/-- Key comparison used to sort eligible day groups by `dayTime`. -/
def dayKeyLe (a b : Int × List Int) : Prop := a.1 ≤ b.1

instance : DecidableRel dayKeyLe := fun a b => Int.decLe a.1 b.1

instance : IsTotal (Int × List Int) dayKeyLe := ⟨fun a b => Int.le_total a.1 b.1⟩

instance : IsTrans (Int × List Int) dayKeyLe := ⟨fun _ _ _ h h' => le_trans h h'⟩

/-- Inner slot cross product of `findAssessmentSlots`: every `slot1 × slot2`
combination that the clinician can accommodate becomes a pair. -/
def crossDayPairs (clinician : Clinician) (slots1 slots2 : List Int) :
    List AssessmentSlotPair :=
  slots1.flatMap fun s1 =>
    (slots2.filter fun s2 =>
        canAccommodateAppointments clinician [s1, s2]).map
      fun s2 => { session1 := s1, session2 := s2 }

/-- Loop over the days after `day1` (`for j = i+1 …`), with the `break` on
the first later day more than seven days away. -/
def pairsWithLaterDays (clinician : Clinician) (day1 : Int × List Int) :
    List (Int × List Int) → List AssessmentSlotPair
  | [] => []
  | day2 :: rest =>
    if day2.1 - day1.1 > sevenDaysMs then []
    else crossDayPairs clinician day1.2 day2.2
      ++ pairsWithLaterDays clinician day1 rest

/-- Outer loop over eligible days (`for i = 0 …`). -/
def assessmentPairsForDays (clinician : Clinician) :
    List (Int × List Int) → List AssessmentSlotPair
  | [] => []
  | day1 :: rest =>
    pairsWithLaterDays clinician day1 rest
      ++ assessmentPairsForDays clinician rest

/-- `validPairs` of one clinician: pair search over the sorted eligible
days. -/
def validPairsOf (clinician : Clinician) : List AssessmentSlotPair :=
  assessmentPairsForDays clinician
    (List.insertionSort dayKeyLe (eligibleDaysOf clinician))

/-- Body of `findAssessmentSlots`' per-clinician loop: `none` is the
`continue` of a skip rule or of an empty pair list. -/
def findAssessmentSlotsForClinician (patient : Patient) (clinician : Clinician) :
    Option ClinicianAvailability :=
  if clinician.clinicianType ≠ "PSYCHOLOGIST" then none
  else if !(isClinicianEligible clinician patient) then none
  else if (assessmentSlotDatesSorted clinician).length < 2 then none
  else if (eligibleDaysOf clinician).length < 2 then none
  else if (validPairsOf clinician).isEmpty then none
  else some { clinician := clinician, availableSlotPairs := validPairsOf clinician }

/-- `findAssessmentSlots`: run the per-clinician search over the roster in
order, keeping clinicians that produced at least one pair. -/
def findAssessmentSlots (patient : Patient) :
    List Clinician → List ClinicianAvailability
  | [] => []
  | c :: rest =>
    match findAssessmentSlotsForClinician patient c with
    | some r => r :: findAssessmentSlots patient rest
    | none => findAssessmentSlots patient rest

/-- The clinician's 60-minute slot starts
(`availableSlots.filter(length === 60).map(date)`). -/
def therapySlotDates (clinician : Clinician) : List Int :=
  (clinician.availableSlots.filter fun slot => slot.length = 60).map
    fun slot => slot.date

/-- The clinician's 60-minute slot starts, sorted ascending (`therapySlots`
in `findTherapySlots`). -/
def therapySlotDatesSorted (clinician : Clinician) : List Int :=
  List.insertionSort (· ≤ ·) (therapySlotDates clinician)

/-- `optimizedSlots` of `findTherapySlots`, after the final ascending sort:
per-day `optimizeSlots` results concatenated across day groups. -/
def therapyOptimizedSorted (clinician : Clinician) : List Int :=
  List.insertionSort (· ≤ ·)
    (((groupSlotsByDay (therapySlotDatesSorted clinician)).map fun g =>
      optimizeSlots g.2 60).flatten)

/-- `availableSlots` of `findTherapySlots`: the compacted slots the
clinician can accommodate individually. -/
def therapyAvailableSlots (clinician : Clinician) : List Int :=
  (therapyOptimizedSorted clinician).filter fun slot =>
    canAccommodateAppointments clinician [slot]

/-- Body of `findTherapySlots`' per-clinician loop. -/
def findTherapySlotsForClinician (patient : Patient) (clinician : Clinician) :
    Option TherapistAvailability :=
  if clinician.clinicianType ≠ "THERAPIST" then none
  else if !(isClinicianEligible clinician patient) then none
  else if (therapySlotDatesSorted clinician).isEmpty then none
  else if (therapyAvailableSlots clinician).isEmpty then none
  else
    some { clinician := clinician
           availableSlots := therapyAvailableSlots clinician }

/-- `findTherapySlots`: run the per-clinician search over the roster in
order, keeping clinicians with at least one bookable slot. -/
def findTherapySlots (patient : Patient) :
    List Clinician → List TherapistAvailability
  | [] => []
  | c :: rest =>
    match findTherapySlotsForClinician patient c with
    | some r => r :: findTherapySlots patient rest
    | none => findTherapySlots patient rest

/-- Start-only form of the greedy scan: every interval is `(s, s + dur)`, so
carrying the start suffices.  Used to reason about `optimizeSlots`. -/
def greedyS (dur : Int) : List Int → Option Int → List Int
  | [], _ => []
  | s :: rest, lastEnd =>
    if leOpt lastEnd s then s :: greedyS dur rest (some (s + dur))
    else greedyS dur rest lastEnd

/-- A list of starts is schedulable when scanned from last end `e`: each
start is at or after the running end, which then advances by `dur`. -/
def ValidFrom (dur : Int) : Option Int → List Int → Prop
  | _, [] => True
  | e, s :: rest => leOpt e s = true ∧ ValidFrom dur (some (s + dur)) rest

/-- Instants of the clinician's capacity-consuming appointments — the only
appointment data `canAccommodateAppointments` depends on. -/
def countableTimes (clinician : Clinician) : List Int :=
  (clinician.appointments.filter fun a => isCountableStatus a.status).map
    fun a => a.scheduledFor

/-- Semantic characterisation of an emitted assessment pair: both sessions
are 90-minute slot starts of the clinician, on strictly increasing calendar
days at most seven days apart, and the clinician can accommodate both. -/
def ValidAssessmentPair (clinician : Clinician) (pr : AssessmentSlotPair) : Prop :=
  pr.session1 ∈ assessmentSlotDates clinician
    ∧ pr.session2 ∈ assessmentSlotDates clinician
    ∧ getStartOfDay pr.session1 < getStartOfDay pr.session2
    ∧ getStartOfDay pr.session2 - getStartOfDay pr.session1 ≤ sevenDaysMs
    ∧ canAccommodateAppointments clinician [pr.session1, pr.session2] = true

/-- Modelled from the spec: the naive all-pairs scan that the optimised
day-grouped search refines — "a naive all-pairs scan over all cross-day slot
pairs at most 7 days apart filtered by `canAccommodate` on the pair". -/
def naiveAssessmentPairs (clinician : Clinician) : List AssessmentSlotPair :=
  (assessmentSlotDates clinician).flatMap fun s1 =>
    ((assessmentSlotDates clinician).filter fun s2 =>
        getStartOfDay s1 < getStartOfDay s2
          ∧ getStartOfDay s2 - getStartOfDay s1 ≤ sevenDaysMs
          ∧ canAccommodateAppointments clinician [s1, s2] = true).map
      fun s2 => { session1 := s1, session2 := s2 }

/-- Modelled from the spec: the naive search keeps the same eligibility
skips and omits clinicians with no valid pair, but enumerates pairs by the
naive scan. -/
def naiveFindAssessmentSlots (patient : Patient) :
    List Clinician → List ClinicianAvailability
  | [] => []
  | c :: rest =>
    if c.clinicianType = "PSYCHOLOGIST" ∧ isClinicianEligible c patient = true
        ∧ naiveAssessmentPairs c ≠ [] then
      { clinician := c, availableSlotPairs := naiveAssessmentPairs c }
        :: naiveFindAssessmentSlots patient rest
    else naiveFindAssessmentSlots patient rest

/-- Invariant of the day-grouping fold: keys are distinct day starts, every
stored slot came from the processed input and lies on its key's day, and
every processed slot is stored under its day key. -/
def GroupsOk (slots : List Int) (acc : List (Int × List Int)) : Prop :=
  (acc.map Prod.fst).Nodup
    ∧ (∀ g ∈ acc, ∀ y ∈ g.2, y ∈ slots ∧ getStartOfDay y = g.1)
    ∧ (∀ y ∈ slots, ∃ g ∈ acc, g.1 = getStartOfDay y ∧ y ∈ g.2)

/-- Patient of the README reference fixture. -/
def fixturePatient : Patient :=
  { id := "patient-1", firstName := "Byrne", lastName := "Hollander",
    state := "NY", insurance := "AETNA" }

/-- A 90-minute availability slot of the reference fixture. -/
def fixtureSlot (i : String) (t : Int) : AvailableAppointmentSlot :=
  { id := i, clinicianId := "test-clinician-1", date := t, length := 90 }

/-- Clinician of the README reference fixture: six 90-minute slots at
2024-08-19T12:00Z, 2024-08-19T12:15Z, 2024-08-21T12:00Z, 2024-08-21T15:00Z,
2024-08-22T15:00Z and 2024-08-28T12:15Z. -/
def fixtureClinician : Clinician :=
  { id := "test-clinician-1", firstName := "Alice", lastName := "Smith",
    clinicianType := "PSYCHOLOGIST", states := ["NY"], insurances := ["AETNA"],
    maxDailyAppointments := 3, maxWeeklyAppointments := 10,
    availableSlots :=
      [ fixtureSlot "test1-1" 1724068800000, fixtureSlot "test1-2" 1724069700000,
        fixtureSlot "test1-3" 1724241600000, fixtureSlot "test1-4" 1724252400000,
        fixtureSlot "test1-5" 1724338800000, fixtureSlot "test1-6" 1724847300000 ],
    appointments := [] }

/-- An UPCOMING appointment at instant `t`. -/
def upcomingAppointment (i : String) (t : Int) : Appointment :=
  { id := i, patientId := "other-patient", clinicianId := "c-over",
    scheduledFor := t, appointmentType := "ASSESSMENT_SESSION_1",
    status := .UPCOMING }

/-- A clinician already over the daily limit on 1970-01-01 (two UPCOMING
appointments, `maxDailyAppointments = 1`) but unconstrained elsewhere. -/
def overbookedClinician : Clinician :=
  { id := "c-over", firstName := "O", lastName := "B",
    clinicianType := "PSYCHOLOGIST", states := ["NY"], insurances := ["AETNA"],
    maxDailyAppointments := 1, maxWeeklyAppointments := 100,
    availableSlots := [],
    appointments :=
      [ upcomingAppointment "apt-1" 0, upcomingAppointment "apt-2" 3600000 ] }

/-- Clinician with one UPCOMING appointment at instant 100 plus one
CANCELLED appointment. -/
def statusClinicianA : Clinician :=
  { id := "c-status", firstName := "S", lastName := "A",
    clinicianType := "PSYCHOLOGIST", states := ["NY"], insurances := ["AETNA"],
    maxDailyAppointments := 2, maxWeeklyAppointments := 5,
    availableSlots := [],
    appointments :=
      [ { id := "a1", patientId := "p", clinicianId := "c-status",
          scheduledFor := 100, appointmentType := "ASSESSMENT_SESSION_1",
          status := .UPCOMING },
        { id := "a2", patientId := "p", clinicianId := "c-status",
          scheduledFor := 5000, appointmentType := "ASSESSMENT_SESSION_1",
          status := .CANCELLED } ] }

/-- Same clinician state as `statusClinicianA` except the CANCELLED
appointment is removed and the consuming appointment's status is permuted
to OCCURRED. -/
def statusClinicianB : Clinician :=
  { id := "c-status", firstName := "S", lastName := "A",
    clinicianType := "PSYCHOLOGIST", states := ["NY"], insurances := ["AETNA"],
    maxDailyAppointments := 2, maxWeeklyAppointments := 5,
    availableSlots := [],
    appointments :=
      [ { id := "a1", patientId := "p", clinicianId := "c-status",
          scheduledFor := 100, appointmentType := "ASSESSMENT_SESSION_1",
          status := .OCCURRED } ] }

/-- Clinician with two 90-minute slots on consecutive days. -/
def smallClinician : Clinician :=
  { id := "c-small", firstName := "W", lastName := "C",
    clinicianType := "PSYCHOLOGIST", states := ["NY"], insurances := ["AETNA"],
    maxDailyAppointments := 3, maxWeeklyAppointments := 10,
    availableSlots :=
      [ { id := "s1", clinicianId := "c-small", date := 43200000, length := 90 },
        { id := "s2", clinicianId := "c-small", date := 129600000, length := 90 } ],
    appointments := [] }

/-- The single result produced for `smallClinician`. -/
def smallResult : ClinicianAvailability :=
  { clinician := smallClinician,
    availableSlotPairs := [{ session1 := 43200000, session2 := 129600000 }] }

lemma getStartOfWeek_spec (t : Int) :
    getStartOfWeek t % dayMs = 0 ∧
    getUTCDay (getStartOfWeek t) = 1 ∧
    getStartOfWeek t ≤ t ∧
    t < getStartOfWeek t + 7 * dayMs ∧
    (getUTCDay t = 0 → getStartOfWeek t = getStartOfDay t - 6 * dayMs) := by
  obtain ⟨n, r, ht, hr0, hr1⟩ :
      ∃ n r, t = n * 86400000 + r ∧ 0 ≤ r ∧ r < 86400000 :=
    ⟨t / 86400000, t % 86400000, by omega, by omega, by omega⟩
  have hnd : t / dayMs = n := by unfold dayMs; omega
  have hmd : t % dayMs = r := by unfold dayMs; omega
  have hsd : getStartOfDay t = n * 86400000 := by
    unfold getStartOfDay; rw [hmd]; omega
  have hw : getStartOfWeek t
      = (n - (if (n + 4) % 7 = 0 then 6 else (n + 4) % 7 - 1)) * 86400000 := by
    unfold getStartOfWeek getUTCDay
    rw [hnd, hsd]
    by_cases h : (n + 4) % 7 = 0 <;> simp only [h, if_true, if_false] <;>
      unfold dayMs <;> ring_nf
  have hwd : ∀ m : Int, getUTCDay (m * 86400000) = (m + 4) % 7 := by
    intro m
    unfold getUTCDay dayMs
    have hq : m * 86400000 / (24 * 60 * 60 * 1000) = m := by omega
    rw [hq]
  refine ⟨?_, ?_, ?_, ?_, ?_⟩
  · rw [hw]; unfold dayMs; omega
  · rw [hw, hwd]; omega
  · rw [hw]; by_cases h : (n + 4) % 7 = 0 <;> simp only [h, if_true, if_false] <;> omega
  · rw [hw]; unfold dayMs; by_cases h : (n + 4) % 7 = 0 <;>
      simp only [h, if_true, if_false] <;> omega
  · intro h0
    unfold getUTCDay at h0
    rw [hnd] at h0
    rw [hw, hsd, h0]
    unfold dayMs; omega

/-- C7: `getStartOfWeek` returns the instant at 00:00:00.000 UTC on the
Monday of the timestamp's ISO calendar week — a day-start whose day of week
is Monday, at most `t`, with `t` less than seven days after it — and a
Sunday timestamp maps to the Monday six days earlier.  The statement holds
for every integer timestamp, in particular when that Monday falls in the
previous calendar month or year. -/
theorem getStartOfWeek_isoMonday (t : Int) :
    getStartOfWeek t % dayMs = 0 ∧
    getUTCDay (getStartOfWeek t) = 1 ∧
    getStartOfWeek t ≤ t ∧
    t < getStartOfWeek t + 7 * dayMs ∧
    (getUTCDay t = 0 → getStartOfWeek t = getStartOfDay t - 6 * dayMs) :=
  getStartOfWeek_spec t

lemma getStartOfDay_idem (t : Int) :
    getStartOfDay (getStartOfDay t) = getStartOfDay t := by
  unfold getStartOfDay dayMs; omega

lemma getStartOfWeek_fixed (w : Int) (h1 : w % dayMs = 0)
    (h2 : getUTCDay w = 1) : getStartOfWeek w = w := by
  unfold getStartOfWeek getStartOfDay
  rw [h2, h1]
  norm_num

lemma getStartOfWeek_idem (t : Int) :
    getStartOfWeek (getStartOfWeek t) = getStartOfWeek t :=
  getStartOfWeek_fixed _ (getStartOfWeek_spec t).1 (getStartOfWeek_spec t).2.1

lemma selectGreedy_map (dur : Int) : ∀ (l : List Int) (e : Option Int),
    selectGreedy (l.map fun d => (d, d + dur)) e = greedyS dur l e := by
  intro l
  induction l with
  | nil => intro e; rfl
  | cons s rest ih =>
    intro e
    by_cases h : leOpt e s = true <;>
      simp [selectGreedy, greedyS, h, ih]

lemma orderedInsert_map_interval (dur a : Int) : ∀ l : List Int,
    List.orderedInsert endLe (a, a + dur) (l.map fun d => (d, d + dur))
      = (List.orderedInsert (· ≤ ·) a l).map fun d => (d, d + dur) := by
  intro l
  induction l with
  | nil => rfl
  | cons b rest ih =>
    simp only [List.map_cons, List.orderedInsert]
    by_cases h : a ≤ b
    · rw [if_pos (show endLe (a, a + dur) (b, b + dur) from add_le_add_right h dur),
        if_pos h]
      rfl
    · rw [if_neg (show ¬ endLe (a, a + dur) (b, b + dur) from
          fun h' => h (le_of_add_le_add_right h')), if_neg h, List.map_cons, ih]

lemma insertionSort_map_interval (dur : Int) : ∀ l : List Int,
    List.insertionSort endLe (l.map fun d => (d, d + dur))
      = (List.insertionSort (· ≤ ·) l).map fun d => (d, d + dur) := by
  intro l
  induction l with
  | nil => rfl
  | cons b rest ih =>
    simp only [List.map_cons, List.insertionSort, ih, orderedInsert_map_interval]

lemma optimizeSlots_eq_greedyS (S : List Int) (D : Int) :
    optimizeSlots S D = greedyS (D * 60000) (List.insertionSort (· ≤ ·) S) none := by
  unfold optimizeSlots
  cases S with
  | nil => rfl
  | cons s rest =>
    rw [if_neg (by simp)]
    rw [insertionSort_map_interval, selectGreedy_map]

lemma greedyS_sublist (dur : Int) : ∀ (l : List Int) (e : Option Int),
    (greedyS dur l e).Sublist l := by
  intro l
  induction l with
  | nil => intro e; exact List.Sublist.refl []
  | cons s rest ih =>
    intro e
    by_cases h : leOpt e s = true
    · simpa [greedyS, h] using (ih (some (s + dur))).cons₂ s
    · simpa [greedyS, h] using (ih e).cons s

lemma greedyS_pairwise (dur : Int) (hdur : 0 ≤ dur) :
    ∀ (l : List Int) (e : Option Int), l.Pairwise (· ≤ ·) →
      (greedyS dur l e).Pairwise (fun a b => a + dur ≤ b)
        ∧ ∀ s ∈ greedyS dur l e, leOpt e s = true := by
  intro l
  induction l with
  | nil => intro e _; exact ⟨List.Pairwise.nil, by simp [greedyS]⟩
  | cons s rest ih =>
    intro e hsort
    by_cases h : leOpt e s = true
    · simp only [greedyS, if_pos h]
      obtain ⟨ihp, ihall⟩ := ih (some (s + dur)) hsort.of_cons
      refine ⟨List.Pairwise.cons (fun b hb => ?_) ihp, ?_⟩
      · have hb2 := ihall b hb
        simpa [leOpt] using hb2
      · intro x hx
        rcases List.mem_cons.mp hx with rfl | hx'
        · exact h
        · have hx2 : s + dur ≤ x := by simpa [leOpt] using ihall x hx'
          cases e with
          | none => rfl
          | some v =>
            have hv : v ≤ s := by simpa [leOpt] using h
            simp only [leOpt, decide_eq_true_eq]
            omega
    · simp only [greedyS, if_neg h]
      exact ih e hsort.of_cons

lemma greedyS_eq_self (dur : Int) : ∀ (l : List Int) (e : Option Int),
    (∀ a ∈ l, leOpt e a = true) →
    l.Pairwise (fun a b => a + dur ≤ b) →
    greedyS dur l e = l := by
  intro l
  induction l with
  | nil => intro e _ _; rfl
  | cons s rest ih =>
    intro e hall hp
    have h : leOpt e s = true := hall s (List.mem_cons_self s rest)
    simp only [greedyS, if_pos h]
    rw [ih (some (s + dur))
      (fun a ha => by
        have hrel := List.rel_of_pairwise_cons hp ha
        simp only [leOpt, decide_eq_true_eq]
        omega)
      hp.of_cons]

lemma validFrom_mono (dur : Int) : ∀ (t : List Int) (a b : Int), a ≤ b →
    ValidFrom dur (some b) t → ValidFrom dur (some a) t := by
  intro t a b hab hv
  cases t with
  | nil => trivial
  | cons s rest =>
    obtain ⟨h1, h2⟩ := hv
    refine ⟨?_, h2⟩
    simp only [leOpt, decide_eq_true_eq] at h1 ⊢
    omega

lemma validFrom_of_pairwise (dur : Int) : ∀ (t : List Int) (e : Option Int),
    t.Pairwise (fun a b => a + dur ≤ b) →
    (∀ a ∈ t, leOpt e a = true) →
    ValidFrom dur e t := by
  intro t
  induction t with
  | nil => intro e _ _; trivial
  | cons s rest ih =>
    intro e hp hall
    refine ⟨hall s (List.mem_cons_self s rest), ?_⟩
    exact ih (some (s + dur)) hp.of_cons
      (fun a ha => by
        have hrel := List.rel_of_pairwise_cons hp ha
        simp only [leOpt, decide_eq_true_eq]
        omega)

lemma greedyS_max (dur : Int) : ∀ (l t : List Int) (e : Option Int),
    l.Pairwise (· ≤ ·) → t.Sublist l → ValidFrom dur e t →
    t.length ≤ (greedyS dur l e).length := by
  intro l
  induction l with
  | nil =>
    intro t e _ hsub _
    simp [List.sublist_nil.mp hsub, greedyS]
  | cons s rest ih =>
    intro t e hsort hsub hval
    by_cases h : leOpt e s = true
    · simp only [greedyS, if_pos h, List.length_cons]
      cases hsub with
      | cons _ h' =>
        cases t with
        | nil => simp
        | cons s' t'' =>
          have hs' : s' ∈ rest := h'.subset (List.mem_cons_self s' t'')
          have ht'' : t''.Sublist rest := (List.sublist_cons_self s' t'').trans h'
          have hss' : s ≤ s' := List.rel_of_pairwise_cons hsort hs'
          have hv'' : ValidFrom dur (some (s + dur)) t'' :=
            validFrom_mono dur t'' (s + dur) (s' + dur) (by omega) hval.2
          have hlen := ih t'' (some (s + dur)) hsort.of_cons ht'' hv''
          simpa using Nat.succ_le_succ hlen
      | cons₂ _ h' =>
        have hlen := ih _ (some (s + dur)) hsort.of_cons h' hval.2
        simpa using Nat.succ_le_succ hlen
    · simp only [greedyS, if_neg h]
      cases hsub with
      | cons _ h' => exact ih t e hsort.of_cons h' hval
      | cons₂ _ h' => exact absurd hval.1 h

lemma sublist_of_subperm_of_sorted :
    ∀ l : List Int, l.Pairwise (· ≤ ·) →
    ∀ t : List Int, t.Pairwise (· < ·) → t.Subperm l → t.Sublist l := by
  intro l
  induction l with
  | nil =>
    intro _ t _ h
    simp only [List.subperm_nil] at h
    simp [h]
  | cons x l' ih =>
    intro hsort t htp hsub
    cases t with
    | nil => exact List.nil_sublist _
    | cons y t' =>
      by_cases hyx : y = x
      · subst hyx
        have h1 : t'.Subperm l' := (List.subperm_cons y).mp hsub
        exact (ih hsort.of_cons t' htp.of_cons h1).cons₂ y
      · have hy : y ∈ x :: l' := hsub.subset (List.mem_cons_self y t')
        have hyl' : y ∈ l' := by
          rcases List.mem_cons.mp hy with h1 | h2
          · exact absurd h1 hyx
          · exact h2
        have hxt : x ∉ y :: t' := by
          intro hx
          rcases List.mem_cons.mp hx with h1 | h2
          · exact hyx h1.symm
          · have h3 : y < x := List.rel_of_pairwise_cons htp h2
            have h4 : x ≤ y := List.rel_of_pairwise_cons hsort hyl'
            omega
        have hsub' : (y :: t').Subperm l' := by
          rw [List.subperm_ext_iff] at hsub ⊢
          intro a ha
          have h5 := hsub a ha
          have hax : a ≠ x := fun hforb => hxt (hforb ▸ ha)
          rwa [List.count_cons_of_ne hax] at h5
        exact (ih hsort.of_cons _ htp hsub').cons x

/-- C1: `optimizeSlots(S, D)` with a positive duration returns a
sub-multiset of `S` whose intervals `[start, start + D)` are pairwise
non-overlapping (adjacency allowed), of maximum cardinality among all
pairwise non-overlapping sub-multisets of `S`; the empty input yields the
empty output. -/
theorem optimizeSlots_maximal (S : List Int) (D : Int) (hD : 0 < D) :
    (optimizeSlots S D).Subperm S ∧
    (optimizeSlots S D).Pairwise
      (fun a b => a + D * 60000 ≤ b ∨ b + D * 60000 ≤ a) ∧
    (∀ T : List Int, T.Subperm S →
      T.Pairwise (fun a b => a + D * 60000 ≤ b ∨ b + D * 60000 ≤ a) →
      T.length ≤ (optimizeSlots S D).length) ∧
    (S = [] → optimizeSlots S D = []) := by
  have hdur : (0:Int) < D * 60000 := by positivity
  have hsorted : (List.insertionSort (· ≤ ·) S).Pairwise (· ≤ ·) :=
    List.sorted_insertionSort (· ≤ ·) S
  have hperm : (List.insertionSort (· ≤ ·) S).Perm S := List.perm_insertionSort (· ≤ ·) S
  refine ⟨?_, ?_, ?_, ?_⟩
  · rw [optimizeSlots_eq_greedyS]
    exact ((greedyS_sublist _ _ _).subperm).trans hperm.subperm
  · rw [optimizeSlots_eq_greedyS]
    exact ((greedyS_pairwise _ hdur.le _ none hsorted).1).imp (fun h => Or.inl h)
  · intro T hTsub hTpair
    have hT'perm : (List.insertionSort (· ≤ ·) T).Perm T := List.perm_insertionSort (· ≤ ·) T
    have hT'sorted : (List.insertionSort (· ≤ ·) T).Pairwise (· ≤ ·) :=
      List.sorted_insertionSort (· ≤ ·) T
    have hT'R : (List.insertionSort (· ≤ ·) T).Pairwise
        (fun a b => a + D * 60000 ≤ b ∨ b + D * 60000 ≤ a) :=
      (hT'perm.pairwise_iff (fun h => h.symm.imp id id)).mpr hTpair
    have chain : (List.insertionSort (· ≤ ·) T).Pairwise
        (fun a b => a + D * 60000 ≤ b) := by
      refine (hT'sorted.and hT'R).imp ?_
      rintro a b ⟨hle, hR | hR⟩
      · exact hR
      · omega
    have strict : (List.insertionSort (· ≤ ·) T).Pairwise (· < ·) :=
      chain.imp (fun h => by omega)
    have hsubperm' : (List.insertionSort (· ≤ ·) T).Subperm (List.insertionSort (· ≤ ·) S) :=
      (hT'perm.subperm.trans hTsub).trans hperm.symm.subperm
    have hsublist := sublist_of_subperm_of_sorted _ hsorted _ strict hsubperm'
    have hvalid : ValidFrom (D * 60000) none (List.insertionSort (· ≤ ·) T) :=
      validFrom_of_pairwise _ _ none chain (fun a _ => rfl)
    calc T.length = (List.insertionSort (· ≤ ·) T).length := hT'perm.length_eq.symm
    _ ≤ (greedyS (D * 60000) (List.insertionSort (· ≤ ·) S) none).length :=
      greedyS_max _ _ _ none hsorted hsublist hvalid
    _ = (optimizeSlots S D).length := by rw [optimizeSlots_eq_greedyS]
  · intro h
    subst h
    rfl

theorem optimizeSlots_maximal_witness :
    (0:Int) < 90 ∧
    ((optimizeSlots [0, 900000, 5400000] 90).Subperm [0, 900000, 5400000] ∧
     (optimizeSlots [0, 900000, 5400000] 90).Pairwise
       (fun a b => a + 90 * 60000 ≤ b ∨ b + 90 * 60000 ≤ a) ∧
     (∀ T : List Int, T.Subperm [0, 900000, 5400000] →
       T.Pairwise (fun a b => a + 90 * 60000 ≤ b ∨ b + 90 * 60000 ≤ a) →
       T.length ≤ (optimizeSlots [0, 900000, 5400000] 90).length) ∧
     ([0, 900000, 5400000] = ([] : List Int) →
       optimizeSlots [0, 900000, 5400000] 90 = [])) :=
  ⟨by decide, optimizeSlots_maximal [0, 900000, 5400000] 90 (by decide)⟩

/-- C8: `optimizeSlots` is idempotent — its output, fed back in with the
same duration, is returned unchanged. -/
theorem optimizeSlots_idempotent (S : List Int) (D : Int) :
    optimizeSlots (optimizeSlots S D) D = optimizeSlots S D := by
  have key : ∀ l : List Int, l.Pairwise (· ≤ ·) →
      l.Pairwise (fun a b => a + D * 60000 ≤ b) → optimizeSlots l D = l := by
    intro l hs hp
    rw [optimizeSlots_eq_greedyS]
    rw [List.Sorted.insertionSort_eq hs]
    exact greedyS_eq_self _ l none (fun a _ => rfl) hp
  have hsorted : (List.insertionSort (· ≤ ·) S).Pairwise (· ≤ ·) :=
    List.sorted_insertionSort (· ≤ ·) S
  rcases le_or_lt (D * 60000) 0 with hle | hpos
  · have hall : optimizeSlots S D = List.insertionSort (· ≤ ·) S := by
      rw [optimizeSlots_eq_greedyS]
      exact greedyS_eq_self _ _ none (fun a _ => rfl)
        (hsorted.imp (fun h => by omega))
    rw [hall]
    exact key _ hsorted (hsorted.imp (fun h => by omega))
  · have h1 : (optimizeSlots S D).Pairwise (· ≤ ·) := by
      rw [optimizeSlots_eq_greedyS]
      exact List.Pairwise.sublist (greedyS_sublist _ _ _) hsorted
    have h2 : (optimizeSlots S D).Pairwise (fun a b => a + D * 60000 ≤ b) := by
      rw [optimizeSlots_eq_greedyS]
      exact (greedyS_pairwise _ hpos.le _ none hsorted).1
    exact key _ h1 h2

lemma getAppointmentsOnDay_startOfDay (c : Clinician) (t : Int) :
    getAppointmentsOnDay c (getStartOfDay t) = getAppointmentsOnDay c t := by
  unfold getAppointmentsOnDay
  rw [getStartOfDay_idem]

lemma getAppointmentsInWeek_startOfWeek (c : Clinician) (t : Int) :
    getAppointmentsInWeek c (getStartOfWeek t) = getAppointmentsInWeek c t := by
  unfold getAppointmentsInWeek
  rw [getStartOfWeek_idem]

lemma canAccommodateAppointments_all_iff (c : Clinician) (dates : List Int) :
    canAccommodateAppointments c dates = true ↔
      ((∀ d ∈ dates, (getAppointmentsOnDay c d : Int)
          + (dates.countP fun x => getStartOfDay x = getStartOfDay d)
          ≤ c.maxDailyAppointments) ∧
       (∀ d ∈ dates, (getAppointmentsInWeek c d : Int)
          + (dates.countP fun x => getStartOfWeek x = getStartOfWeek d)
          ≤ c.maxWeeklyAppointments)) := by
  unfold canAccommodateAppointments
  rw [Bool.and_eq_true, List.all_eq_true, List.all_eq_true]
  constructor
  · rintro ⟨hd, hw⟩
    constructor
    · intro d hdm
      have h1 := hd (getStartOfDay d) (List.mem_dedup.mpr (List.mem_map_of_mem _ hdm))
      rw [decide_eq_true_eq, getAppointmentsOnDay_startOfDay] at h1
      exact h1
    · intro d hdm
      have h1 := hw (getStartOfWeek d) (List.mem_dedup.mpr (List.mem_map_of_mem _ hdm))
      rw [decide_eq_true_eq, getAppointmentsInWeek_startOfWeek] at h1
      exact h1
  · rintro ⟨hd, hw⟩
    constructor
    · intro k hk
      obtain ⟨d, hdm, rfl⟩ := List.mem_map.mp (List.mem_dedup.mp hk)
      rw [decide_eq_true_eq, getAppointmentsOnDay_startOfDay]
      exact hd d hdm
    · intro k hk
      obtain ⟨d, hdm, rfl⟩ := List.mem_map.mp (List.mem_dedup.mp hk)
      rw [decide_eq_true_eq, getAppointmentsInWeek_startOfWeek]
      exact hw d hdm

/-- C2 (counterexample): as literally stated — quantifying over every
calendar day, also days on which no proposed instant falls — the claim
fails: `overbookedClinician` is over its daily limit on 1970-01-01, yet a
proposal for a different day and week is accepted. -/
theorem canAccommodateAppointments_everyDay_false :
    canAccommodateAppointments overbookedClinician [1209600000] = true ∧
    ¬ (∀ d : Int, (getAppointmentsOnDay overbookedClinician d : Int)
        + ([1209600000].countP fun x => getStartOfDay x = getStartOfDay d)
        ≤ overbookedClinician.maxDailyAppointments) := by
  constructor
  · decide
  · intro h
    have h0 := h 0
    revert h0
    decide

/-- C2 (amended): `canAccommodateAppointments` returns true iff, for every
calendar day on which at least one proposed instant falls, the existing
capacity-consuming count plus the proposed count on that day is at most
`maxDailyAppointments`, and likewise for every calendar week containing a
proposed instant; landing exactly on a limit is accepted, also when several
proposals share a day or week. -/
theorem canAccommodateAppointments_day_week_bounds (c : Clinician) (dates : List Int) :
    canAccommodateAppointments c dates = true ↔
      ((∀ d ∈ dates, (getAppointmentsOnDay c d : Int)
          + (dates.countP fun x => getStartOfDay x = getStartOfDay d)
          ≤ c.maxDailyAppointments) ∧
       (∀ d ∈ dates, (getAppointmentsInWeek c d : Int)
          + (dates.countP fun x => getStartOfWeek x = getStartOfWeek d)
          ≤ c.maxWeeklyAppointments)) :=
  canAccommodateAppointments_all_iff c dates

lemma getAppointmentsOnDay_eq_countP (c : Clinician) (t : Int) :
    getAppointmentsOnDay c t = (countableTimes c).countP
      (fun x => getStartOfDay t ≤ x ∧ x < getStartOfDay t + dayMs) := by
  unfold getAppointmentsOnDay countableTimes
  rw [List.countP_map, List.countP_filter, ← List.countP_eq_length_filter]
  apply List.countP_congr
  intro a _
  constructor
  · intro h
    rw [decide_eq_true_eq] at h
    simp only [Function.comp, Bool.and_eq_true, decide_eq_true_eq]
    exact ⟨⟨h.1, h.2.1⟩, h.2.2⟩
  · intro h
    simp only [Function.comp, Bool.and_eq_true, decide_eq_true_eq] at h
    rw [decide_eq_true_eq]
    exact ⟨h.1.1, h.1.2, h.2⟩

lemma getAppointmentsInWeek_eq_countP (c : Clinician) (t : Int) :
    getAppointmentsInWeek c t = (countableTimes c).countP
      (fun x => getStartOfWeek t ≤ x ∧ x < getStartOfWeek t + 7 * dayMs) := by
  unfold getAppointmentsInWeek countableTimes
  rw [List.countP_map, List.countP_filter, ← List.countP_eq_length_filter]
  apply List.countP_congr
  intro a _
  constructor
  · intro h
    rw [decide_eq_true_eq] at h
    simp only [Function.comp, Bool.and_eq_true, decide_eq_true_eq]
    exact ⟨⟨h.1, h.2.1⟩, h.2.2⟩
  · intro h
    simp only [Function.comp, Bool.and_eq_true, decide_eq_true_eq] at h
    rw [decide_eq_true_eq]
    exact ⟨h.1.1, h.1.2, h.2⟩

/-- C3: `canAccommodateAppointments` depends only on the limits and on the
multiset of instants of capacity-consuming appointments.  Hence two states
that differ only by adding, removing or retiming CANCELLED / NO_SHOW /
RE_SCHEDULED appointments, or only by permuting a consuming appointment's
status among UPCOMING, OCCURRED and LATE_CANCELLATION, give the same answer
on every proposal list: both transformations leave `countableTimes`
unchanged up to permutation. -/
theorem canAccommodateAppointments_status_invariant (c1 c2 : Clinician)
    (hmax : c1.maxDailyAppointments = c2.maxDailyAppointments)
    (hwmax : c1.maxWeeklyAppointments = c2.maxWeeklyAppointments)
    (happ : (countableTimes c1).Perm (countableTimes c2)) :
    ∀ dates : List Int,
      canAccommodateAppointments c1 dates = canAccommodateAppointments c2 dates := by
  intro dates
  have hd : ∀ t, getAppointmentsOnDay c1 t = getAppointmentsOnDay c2 t := by
    intro t
    rw [getAppointmentsOnDay_eq_countP, getAppointmentsOnDay_eq_countP,
      happ.countP_eq]
  have hw : ∀ t, getAppointmentsInWeek c1 t = getAppointmentsInWeek c2 t := by
    intro t
    rw [getAppointmentsInWeek_eq_countP, getAppointmentsInWeek_eq_countP,
      happ.countP_eq]
  unfold canAccommodateAppointments
  simp only [hd, hw, hmax, hwmax]

theorem canAccommodateAppointments_status_invariant_witness :
    (statusClinicianA.maxDailyAppointments = statusClinicianB.maxDailyAppointments
      ∧ statusClinicianA.maxWeeklyAppointments = statusClinicianB.maxWeeklyAppointments
      ∧ (countableTimes statusClinicianA).Perm (countableTimes statusClinicianB))
    ∧ canAccommodateAppointments statusClinicianA [100]
        = canAccommodateAppointments statusClinicianB [100] :=
  ⟨⟨by decide, by decide, by decide⟩,
    canAccommodateAppointments_status_invariant statusClinicianA statusClinicianB
      (by decide) (by decide) (by decide) [100]⟩

lemma addSlot_fst : ∀ (acc : List (Int × List Int)) (k s : Int),
    ((addSlotToDayGroup acc k s).map Prod.fst = acc.map Prod.fst
        ∧ k ∈ acc.map Prod.fst)
    ∨ ((addSlotToDayGroup acc k s).map Prod.fst = acc.map Prod.fst ++ [k]
        ∧ k ∉ acc.map Prod.fst) := by
  intro acc
  induction acc with
  | nil =>
    intro k s
    right
    exact ⟨by simp [addSlotToDayGroup], by simp⟩
  | cons g0 rest ih =>
    intro k s
    obtain ⟨k', ss⟩ := g0
    by_cases h : k' = k
    · subst h
      left
      exact ⟨by simp [addSlotToDayGroup], by simp⟩
    · rcases ih k s with ⟨h1, h2⟩ | ⟨h1, h2⟩
      · left
        refine ⟨by simp [addSlotToDayGroup, h, h1], ?_⟩
        simp only [List.map_cons, List.mem_cons]
        exact Or.inr h2
      · right
        refine ⟨by simp [addSlotToDayGroup, h, h1], ?_⟩
        simp only [List.map_cons, List.mem_cons]
        rintro (h3 | h3)
        · exact h h3.symm
        · exact h2 h3

lemma addSlot_mem_src : ∀ (acc : List (Int × List Int)) (k s : Int)
    (g : Int × List Int), g ∈ addSlotToDayGroup acc k s →
    ∀ y ∈ g.2, (∃ g' ∈ acc, g'.1 = g.1 ∧ y ∈ g'.2) ∨ (y = s ∧ g.1 = k) := by
  intro acc
  induction acc with
  | nil =>
    intro k s g hg y hy
    simp only [addSlotToDayGroup, List.mem_singleton] at hg
    subst hg
    have hy' : y ∈ [s] := hy
    simp only [List.mem_singleton] at hy'
    exact Or.inr ⟨hy', rfl⟩
  | cons g0 rest ih =>
    intro k s g hg y hy
    obtain ⟨k', ss⟩ := g0
    by_cases h : k' = k
    · subst h
      rw [show addSlotToDayGroup ((k', ss) :: rest) k' s = (k', ss ++ [s]) :: rest
        from by simp [addSlotToDayGroup]] at hg
      rcases List.mem_cons.mp hg with hgeq | hg'
      · subst hgeq
        have hy' : y ∈ ss ++ [s] := hy
        rcases List.mem_append.mp hy' with hy1 | hy2
        · exact Or.inl ⟨(k', ss), List.mem_cons_self _ _, rfl, hy1⟩
        · exact Or.inr ⟨by simpa using hy2, rfl⟩
      · exact Or.inl ⟨g, List.mem_cons_of_mem _ hg', rfl, hy⟩
    · rw [show addSlotToDayGroup ((k', ss) :: rest) k s
          = (k', ss) :: addSlotToDayGroup rest k s
        from by simp [addSlotToDayGroup, h]] at hg
      rcases List.mem_cons.mp hg with hgeq | hg'
      · subst hgeq
        exact Or.inl ⟨(k', ss), List.mem_cons_self _ _, rfl, hy⟩
      · rcases ih k s g hg' y hy with ⟨g', hg'', heq, hy'⟩ | hnew
        · exact Or.inl ⟨g', List.mem_cons_of_mem _ hg'', heq, hy'⟩
        · exact Or.inr hnew

lemma addSlot_mem_preserve : ∀ (acc : List (Int × List Int)) (k s : Int)
    (g' : Int × List Int), g' ∈ acc →
    ∃ g ∈ addSlotToDayGroup acc k s, g.1 = g'.1 ∧ ∀ y ∈ g'.2, y ∈ g.2 := by
  intro acc
  induction acc with
  | nil =>
    intro k s g' hg'
    simp at hg'
  | cons g0 rest ih =>
    intro k s g' hg'
    obtain ⟨k', ss⟩ := g0
    by_cases h : k' = k
    · subst h
      have hrw : addSlotToDayGroup ((k', ss) :: rest) k' s
          = (k', ss ++ [s]) :: rest := by simp [addSlotToDayGroup]
      rcases List.mem_cons.mp hg' with hgeq | hmem
      · subst hgeq
        refine ⟨(k', ss ++ [s]), ?_, rfl, ?_⟩
        · rw [hrw]; exact List.mem_cons_self _ _
        · intro y hy; exact List.mem_append_left _ hy
      · refine ⟨g', ?_, rfl, fun y hy => hy⟩
        rw [hrw]; exact List.mem_cons_of_mem _ hmem
    · have hrw : addSlotToDayGroup ((k', ss) :: rest) k s
          = (k', ss) :: addSlotToDayGroup rest k s := by
        simp [addSlotToDayGroup, h]
      rcases List.mem_cons.mp hg' with hgeq | hmem
      · subst hgeq
        refine ⟨(k', ss), ?_, rfl, fun y hy => hy⟩
        rw [hrw]; exact List.mem_cons_self _ _
      · obtain ⟨g, hg, heq, hsub⟩ := ih k s g' hmem
        refine ⟨g, ?_, heq, hsub⟩
        rw [hrw]; exact List.mem_cons_of_mem _ hg

lemma addSlot_mem_new : ∀ (acc : List (Int × List Int)) (k s : Int),
    ∃ g ∈ addSlotToDayGroup acc k s, g.1 = k ∧ s ∈ g.2 := by
  intro acc
  induction acc with
  | nil =>
    intro k s
    exact ⟨(k, [s]), by simp [addSlotToDayGroup], rfl, by simp⟩
  | cons g0 rest ih =>
    intro k s
    obtain ⟨k', ss⟩ := g0
    by_cases h : k' = k
    · subst h
      refine ⟨(k', ss ++ [s]), ?_, rfl, by simp⟩
      simp [addSlotToDayGroup]
    · obtain ⟨g, hg, heq, hs⟩ := ih k s
      refine ⟨g, ?_, heq, hs⟩
      rw [show addSlotToDayGroup ((k', ss) :: rest) k s
          = (k', ss) :: addSlotToDayGroup rest k s
        from by simp [addSlotToDayGroup, h]]
      exact List.mem_cons_of_mem _ hg

lemma groupsOk_addSlot (seen : List Int) (acc : List (Int × List Int)) (x : Int)
    (h : GroupsOk seen acc) :
    GroupsOk (seen ++ [x]) (addSlotToDayGroup acc (getStartOfDay x) x) := by
  obtain ⟨hnd, hsrc, hfind⟩ := h
  refine ⟨?_, ?_, ?_⟩
  · rcases addSlot_fst acc (getStartOfDay x) x with ⟨h1, _⟩ | ⟨h1, h2⟩
    · rw [h1]; exact hnd
    · rw [h1]
      simp only [List.nodup_append, List.nodup_cons, List.not_mem_nil,
        not_false_iff, List.nodup_nil, and_true, true_and]
      exact ⟨hnd, by simpa using h2⟩
  · intro g hg y hy
    rcases addSlot_mem_src acc _ _ g hg y hy with ⟨g', hg', hfst, hy'⟩ | ⟨rfl, hk⟩
    · obtain ⟨hys, hyd⟩ := hsrc g' hg' y hy'
      exact ⟨List.mem_append_left _ hys, by rw [hyd, hfst]⟩
    · exact ⟨List.mem_append_right _ (by simp), by rw [hk]⟩
  · intro y hy
    rcases List.mem_append.mp hy with hy1 | hy2
    · obtain ⟨g', hg', hfst, hyg⟩ := hfind y hy1
      obtain ⟨g, hg, hfst2, hsub⟩ := addSlot_mem_preserve acc _ _ g' hg'
      exact ⟨g, hg, by rw [hfst2, hfst], hsub y hyg⟩
    · have hyx : y = x := by simpa using hy2
      subst hyx
      obtain ⟨g, hg, h1, h2⟩ := addSlot_mem_new acc (getStartOfDay y) y
      exact ⟨g, hg, h1.symm ▸ rfl, h2⟩

lemma groupsOk_fold (slots : List Int) :
    ∀ (acc : List (Int × List Int)) (seen : List Int), GroupsOk seen acc →
      GroupsOk (seen ++ slots)
        (slots.foldl (fun acc s => addSlotToDayGroup acc (getStartOfDay s) s) acc) := by
  induction slots with
  | nil => intro acc seen h; simpa using h
  | cons x rest ih =>
    intro acc seen h
    have h1 := groupsOk_addSlot seen acc x h
    have h2 := ih _ (seen ++ [x]) h1
    simpa [List.append_assoc] using h2

lemma groupsOk_groupSlotsByDay (slots : List Int) :
    GroupsOk slots (groupSlotsByDay slots) := by
  have h := groupsOk_fold slots [] []
    ⟨by simp, by simp, by simp⟩
  simpa [groupSlotsByDay] using h

lemma eligibleDays_sub_groups (c : Clinician) :
    ∀ g ∈ eligibleDaysOf c, g ∈ groupSlotsByDay (assessmentSlotDatesSorted c) :=
  fun _ hg => List.mem_of_mem_filter hg

lemma eligibleDays_keys_nodup (c : Clinician) :
    ((eligibleDaysOf c).map Prod.fst).Nodup := by
  have h1 := (groupsOk_groupSlotsByDay (assessmentSlotDatesSorted c)).1
  exact List.Nodup.sublist
    (List.Sublist.map Prod.fst (List.filter_sublist _)) h1

lemma sortedEligibleDays_strict (c : Clinician) :
    (List.insertionSort dayKeyLe (eligibleDaysOf c)).Pairwise
      (fun a b => a.1 < b.1) := by
  have hsorted : (List.insertionSort dayKeyLe (eligibleDaysOf c)).Pairwise dayKeyLe :=
    List.sorted_insertionSort dayKeyLe (eligibleDaysOf c)
  have hperm : (List.insertionSort dayKeyLe (eligibleDaysOf c)).Perm (eligibleDaysOf c) :=
    List.perm_insertionSort dayKeyLe (eligibleDaysOf c)
  have hnd : ((List.insertionSort dayKeyLe (eligibleDaysOf c)).map Prod.fst).Nodup :=
    ((hperm.map Prod.fst).nodup_iff).mpr (eligibleDays_keys_nodup c)
  have hne : (List.insertionSort dayKeyLe (eligibleDaysOf c)).Pairwise
      (fun a b => a.1 ≠ b.1) := by
    have := List.pairwise_map.mp hnd
    exact this
  refine (hsorted.and hne).imp ?_
  rintro a b ⟨h1, h2⟩
  exact lt_of_le_of_ne h1 h2

lemma mem_crossDayPairs {c : Clinician} {ss1 ss2 : List Int}
    {pr : AssessmentSlotPair} :
    pr ∈ crossDayPairs c ss1 ss2 ↔
      ∃ s1 ∈ ss1, ∃ s2 ∈ ss2,
        canAccommodateAppointments c [s1, s2] = true
          ∧ pr = { session1 := s1, session2 := s2 } := by
  unfold crossDayPairs
  simp only [List.mem_flatMap, List.mem_map, List.mem_filter]
  constructor
  · rintro ⟨s1, hs1, s2, ⟨hs2, hacc⟩, rfl⟩
    exact ⟨s1, hs1, s2, hs2, hacc, rfl⟩
  · rintro ⟨s1, hs1, s2, hs2, hacc, rfl⟩
    exact ⟨s1, hs1, s2, ⟨hs2, hacc⟩, rfl⟩

lemma mem_pairsWithLaterDays {c : Clinician} {day1 : Int × List Int}
    {pr : AssessmentSlotPair} :
    ∀ {rest : List (Int × List Int)},
    rest.Pairwise (fun a b => a.1 ≤ b.1) →
    (pr ∈ pairsWithLaterDays c day1 rest ↔
      ∃ day2 ∈ rest, day2.1 - day1.1 ≤ sevenDaysMs
        ∧ pr ∈ crossDayPairs c day1.2 day2.2) := by
  intro rest
  induction rest with
  | nil => intro _; simp [pairsWithLaterDays]
  | cons d2 rest' ih =>
    intro hsorted
    by_cases h : d2.1 - day1.1 > sevenDaysMs
    · rw [show pairsWithLaterDays c day1 (d2 :: rest') = [] from by
        simp [pairsWithLaterDays, h]]
      simp only [List.not_mem_nil, false_iff]
      rintro ⟨day2, hmem, hgap, -⟩
      rcases List.mem_cons.mp hmem with rfl | hmem'
      · omega
      · have hle : d2.1 ≤ day2.1 := List.rel_of_pairwise_cons hsorted hmem'
        omega
    · rw [show pairsWithLaterDays c day1 (d2 :: rest')
          = crossDayPairs c day1.2 d2.2 ++ pairsWithLaterDays c day1 rest' from by
        simp [pairsWithLaterDays, h]]
      rw [List.mem_append, ih hsorted.of_cons]
      constructor
      · rintro (hcross | ⟨d2', hm, hg, hc⟩)
        · exact ⟨d2, List.mem_cons_self _ _, by omega, hcross⟩
        · exact ⟨d2', List.mem_cons_of_mem _ hm, hg, hc⟩
      · rintro ⟨d2', hm, hg, hc⟩
        rcases List.mem_cons.mp hm with rfl | hm'
        · exact Or.inl hc
        · exact Or.inr ⟨d2', hm', hg, hc⟩

lemma mem_assessmentPairsForDays {c : Clinician} {pr : AssessmentSlotPair} :
    ∀ {L : List (Int × List Int)},
    L.Pairwise (fun a b => a.1 < b.1) →
    (pr ∈ assessmentPairsForDays c L ↔
      ∃ d1 ∈ L, ∃ d2 ∈ L, d1.1 < d2.1 ∧ d2.1 - d1.1 ≤ sevenDaysMs
        ∧ pr ∈ crossDayPairs c d1.2 d2.2) := by
  intro L
  induction L with
  | nil => intro _; simp [assessmentPairsForDays]
  | cons d1 rest ih =>
    intro hL
    have hrest_le : rest.Pairwise (fun a b : Int × List Int => a.1 ≤ b.1) :=
      hL.of_cons.imp (fun h => le_of_lt h)
    rw [show assessmentPairsForDays c (d1 :: rest)
        = pairsWithLaterDays c d1 rest ++ assessmentPairsForDays c rest from rfl]
    rw [List.mem_append, mem_pairsWithLaterDays hrest_le, ih hL.of_cons]
    constructor
    · rintro (⟨d2, hm, hg, hc⟩ | ⟨da, hma, db, hmb, hlt, hg, hc⟩)
      · exact ⟨d1, List.mem_cons_self _ _, d2, List.mem_cons_of_mem _ hm,
          List.rel_of_pairwise_cons hL hm, hg, hc⟩
      · exact ⟨da, List.mem_cons_of_mem _ hma, db, List.mem_cons_of_mem _ hmb,
          hlt, hg, hc⟩
    · rintro ⟨da, hma, db, hmb, hlt, hg, hc⟩
      rcases List.mem_cons.mp hma with rfl | hma'
      · rcases List.mem_cons.mp hmb with rfl | hmb'
        · exact absurd hlt (lt_irrefl _)
        · exact Or.inl ⟨db, hmb', hg, hc⟩
      · rcases List.mem_cons.mp hmb with rfl | hmb'
        · have hba : db.1 < da.1 := List.rel_of_pairwise_cons hL hma'
          omega
        · exact Or.inr ⟨da, hma', db, hmb', hlt, hg, hc⟩

lemma canAccommodate_pair_headroom {c : Clinician} {s1 s2 : Int}
    (hne : getStartOfDay s1 ≠ getStartOfDay s2)
    (h : canAccommodateAppointments c [s1, s2] = true) :
    (getAppointmentsOnDay c (getStartOfDay s1) : Int) + 1 ≤ c.maxDailyAppointments
      ∧ (getAppointmentsOnDay c (getStartOfDay s2) : Int) + 1
          ≤ c.maxDailyAppointments := by
  obtain ⟨hday, -⟩ := (canAccommodateAppointments_all_iff c [s1, s2]).mp h
  have h1 := hday s1 (by simp)
  have h2 := hday s2 (by simp)
  have hc1 : ([s1, s2].countP fun x => getStartOfDay x = getStartOfDay s1) = 1 := by
    simp [List.countP_cons, Ne.symm hne]
  have hc2 : ([s1, s2].countP fun x => getStartOfDay x = getStartOfDay s2) = 1 := by
    simp [List.countP_cons, hne]
  rw [hc1] at h1
  rw [hc2] at h2
  rw [getAppointmentsOnDay_startOfDay, getAppointmentsOnDay_startOfDay]
  exact ⟨h1, h2⟩

lemma two_mem_le_length {α : Type} {l : List α} {a b : α}
    (ha : a ∈ l) (hb : b ∈ l) (hne : a ≠ b) : 2 ≤ l.length := by
  cases l with
  | nil => simp at ha
  | cons x rest =>
    cases rest with
    | nil =>
      simp only [List.mem_singleton] at ha hb
      exact absurd (ha.trans hb.symm) hne
    | cons y t =>
      simp only [List.length_cons]
      omega

lemma mem_validPairsOf {c : Clinician} {pr : AssessmentSlotPair} :
    pr ∈ validPairsOf c ↔ ValidAssessmentPair c pr := by
  unfold validPairsOf
  rw [mem_assessmentPairsForDays (sortedEligibleDays_strict c)]
  constructor
  · rintro ⟨d1, hm1, d2, hm2, hlt, hgap, hcross⟩
    rw [mem_crossDayPairs] at hcross
    obtain ⟨s1, hs1, s2, hs2, hacc, rfl⟩ := hcross
    have hm1' : d1 ∈ eligibleDaysOf c := (List.mem_insertionSort _).mp hm1
    have hm2' : d2 ∈ eligibleDaysOf c := (List.mem_insertionSort _).mp hm2
    have hg1 : d1 ∈ groupSlotsByDay (assessmentSlotDatesSorted c) :=
      eligibleDays_sub_groups c d1 hm1'
    have hg2 : d2 ∈ groupSlotsByDay (assessmentSlotDatesSorted c) :=
      eligibleDays_sub_groups c d2 hm2'
    have h1 := (groupsOk_groupSlotsByDay (assessmentSlotDatesSorted c)).2.1 d1 hg1 s1 hs1
    have h2 := (groupsOk_groupSlotsByDay (assessmentSlotDatesSorted c)).2.1 d2 hg2 s2 hs2
    refine ⟨?_, ?_, ?_, ?_, hacc⟩
    · have hmem := h1.1
      unfold assessmentSlotDatesSorted at hmem
      exact (List.mem_insertionSort _).mp hmem
    · have hmem := h2.1
      unfold assessmentSlotDatesSorted at hmem
      exact (List.mem_insertionSort _).mp hmem
    · show getStartOfDay s1 < getStartOfDay s2
      rw [h1.2, h2.2]
      exact hlt
    · show getStartOfDay s2 - getStartOfDay s1 ≤ sevenDaysMs
      rw [h1.2, h2.2]
      exact hgap
  · rintro ⟨hs1, hs2, hlt, hgap, hacc⟩
    obtain ⟨g1, hg1, hk1, hs1g⟩ :=
      (groupsOk_groupSlotsByDay (assessmentSlotDatesSorted c)).2.2 pr.session1
        (by unfold assessmentSlotDatesSorted; exact (List.mem_insertionSort _).mpr hs1)
    obtain ⟨g2, hg2, hk2, hs2g⟩ :=
      (groupsOk_groupSlotsByDay (assessmentSlotDatesSorted c)).2.2 pr.session2
        (by unfold assessmentSlotDatesSorted; exact (List.mem_insertionSort _).mpr hs2)
    have hheadroom := canAccommodate_pair_headroom (ne_of_lt hlt) hacc
    have he1 : g1 ∈ eligibleDaysOf c := by
      unfold eligibleDaysOf
      rw [List.mem_filter]
      refine ⟨hg1, ?_⟩
      rw [decide_eq_true_eq, hk1]
      exact hheadroom.1
    have he2 : g2 ∈ eligibleDaysOf c := by
      unfold eligibleDaysOf
      rw [List.mem_filter]
      refine ⟨hg2, ?_⟩
      rw [decide_eq_true_eq, hk2]
      exact hheadroom.2
    refine ⟨g1, (List.mem_insertionSort _).mpr he1, g2, (List.mem_insertionSort _).mpr he2,
      ?_, ?_, ?_⟩
    · rw [hk1, hk2]
      exact hlt
    · rw [hk1, hk2]
      exact hgap
    · rw [mem_crossDayPairs]
      exact ⟨pr.session1, hs1g, pr.session2, hs2g, hacc, rfl⟩

lemma mem_naiveAssessmentPairs {c : Clinician} {pr : AssessmentSlotPair} :
    pr ∈ naiveAssessmentPairs c ↔ ValidAssessmentPair c pr := by
  unfold naiveAssessmentPairs ValidAssessmentPair
  simp only [List.mem_flatMap, List.mem_map, List.mem_filter]
  constructor
  · rintro ⟨s1, hs1, s2, ⟨hs2, hcond⟩, rfl⟩
    rw [decide_eq_true_eq] at hcond
    exact ⟨hs1, hs2, hcond.1, hcond.2.1, hcond.2.2⟩
  · rintro ⟨h1, h2, h3, h4, h5⟩
    refine ⟨pr.session1, h1, pr.session2, ⟨h2, ?_⟩, rfl⟩
    rw [decide_eq_true_eq]
    exact ⟨h3, h4, h5⟩

lemma validAssessmentPair_two_slots {c : Clinician} {pr : AssessmentSlotPair}
    (h : ValidAssessmentPair c pr) : 2 ≤ (assessmentSlotDatesSorted c).length := by
  obtain ⟨h1, h2, h3, -, -⟩ := h
  have hne : pr.session1 ≠ pr.session2 := by
    intro he
    rw [he] at h3
    exact lt_irrefl _ h3
  have e1 : pr.session1 ∈ assessmentSlotDatesSorted c := by
    unfold assessmentSlotDatesSorted
    exact (List.mem_insertionSort _).mpr h1
  have e2 : pr.session2 ∈ assessmentSlotDatesSorted c := by
    unfold assessmentSlotDatesSorted
    exact (List.mem_insertionSort _).mpr h2
  exact two_mem_le_length e1 e2 hne

lemma validAssessmentPair_two_days {c : Clinician} {pr : AssessmentSlotPair}
    (h : ValidAssessmentPair c pr) : 2 ≤ (eligibleDaysOf c).length := by
  obtain ⟨h1, h2, h3, h4, h5⟩ := h
  obtain ⟨g1, hg1, hk1, -⟩ :=
    (groupsOk_groupSlotsByDay (assessmentSlotDatesSorted c)).2.2 pr.session1
      (by unfold assessmentSlotDatesSorted; exact (List.mem_insertionSort _).mpr h1)
  obtain ⟨g2, hg2, hk2, -⟩ :=
    (groupsOk_groupSlotsByDay (assessmentSlotDatesSorted c)).2.2 pr.session2
      (by unfold assessmentSlotDatesSorted; exact (List.mem_insertionSort _).mpr h2)
  have hheadroom := canAccommodate_pair_headroom (ne_of_lt h3) h5
  have he1 : g1 ∈ eligibleDaysOf c := by
    unfold eligibleDaysOf
    rw [List.mem_filter]
    exact ⟨hg1, by rw [decide_eq_true_eq, hk1]; exact hheadroom.1⟩
  have he2 : g2 ∈ eligibleDaysOf c := by
    unfold eligibleDaysOf
    rw [List.mem_filter]
    exact ⟨hg2, by rw [decide_eq_true_eq, hk2]; exact hheadroom.2⟩
  have hne : g1 ≠ g2 := by
    intro he
    have hked : g1.1 = g2.1 := by rw [he]
    rw [hk1, hk2] at hked
    exact absurd hked (ne_of_lt h3)
  exact two_mem_le_length he1 he2 hne

lemma findAssessmentSlotsForClinician_eq_some {p : Patient} {c : Clinician}
    {r : ClinicianAvailability} (h : findAssessmentSlotsForClinician p c = some r) :
    r.clinician = c ∧ r.availableSlotPairs = validPairsOf c := by
  unfold findAssessmentSlotsForClinician at h
  split_ifs at h
  cases h
  exact ⟨rfl, rfl⟩

lemma mem_findAssessmentSlots {p : Patient} :
    ∀ {cs : List Clinician} {r : ClinicianAvailability},
    r ∈ findAssessmentSlots p cs →
    ∃ c ∈ cs, findAssessmentSlotsForClinician p c = some r := by
  intro cs
  induction cs with
  | nil => intro r h; simp [findAssessmentSlots] at h
  | cons c rest ih =>
    intro r h
    cases hc : findAssessmentSlotsForClinician p c with
    | some r' =>
      rw [show findAssessmentSlots p (c :: rest)
          = r' :: findAssessmentSlots p rest from by
        simp [findAssessmentSlots, hc]] at h
      rcases List.mem_cons.mp h with rfl | h'
      · exact ⟨c, List.mem_cons_self _ _, hc⟩
      · obtain ⟨c', hc', h''⟩ := ih h'
        exact ⟨c', List.mem_cons_of_mem _ hc', h''⟩
    | none =>
      rw [show findAssessmentSlots p (c :: rest) = findAssessmentSlots p rest from by
        simp [findAssessmentSlots, hc]] at h
      obtain ⟨c', hc', h''⟩ := ih h
      exact ⟨c', List.mem_cons_of_mem _ hc', h''⟩

/-- C4: every pair emitted by `findAssessmentSlots` has its two sessions on
strictly increasing calendar days (hence different days) whose day starts
are at most seven days apart, the emitting clinician can accommodate the
pair (so both days and both affected weeks stay within limits), and
`session1 < session2` chronologically. -/
theorem findAssessmentSlots_pair_valid (p : Patient) (cs : List Clinician)
    (r : ClinicianAvailability) (pr : AssessmentSlotPair)
    (hr : r ∈ findAssessmentSlots p cs) (hpr : pr ∈ r.availableSlotPairs) :
    getStartOfDay pr.session1 < getStartOfDay pr.session2 ∧
    getStartOfDay pr.session2 - getStartOfDay pr.session1 ≤ sevenDaysMs ∧
    canAccommodateAppointments r.clinician [pr.session1, pr.session2] = true ∧
    pr.session1 < pr.session2 := by
  obtain ⟨c, -, hsome⟩ := mem_findAssessmentSlots hr
  obtain ⟨hclin, hpairs⟩ := findAssessmentSlotsForClinician_eq_some hsome
  rw [hpairs] at hpr
  obtain ⟨-, -, hlt, hgap, hacc⟩ := (mem_validPairsOf).mp hpr
  refine ⟨hlt, hgap, by rw [hclin]; exact hacc, ?_⟩
  have hlt' := hlt
  unfold getStartOfDay dayMs at hlt'
  omega

theorem findAssessmentSlots_pair_valid_witness :
    (smallResult ∈ findAssessmentSlots fixturePatient [smallClinician]
      ∧ ({ session1 := 43200000, session2 := 129600000 } : AssessmentSlotPair)
          ∈ smallResult.availableSlotPairs)
    ∧ (getStartOfDay (43200000 : Int) < getStartOfDay (129600000 : Int) ∧
       getStartOfDay (129600000 : Int) - getStartOfDay (43200000 : Int) ≤ sevenDaysMs ∧
       canAccommodateAppointments smallResult.clinician [43200000, 129600000] = true ∧
       (43200000 : Int) < 129600000) :=
  ⟨⟨by decide, by decide⟩,
    findAssessmentSlots_pair_valid fixturePatient [smallClinician] smallResult
      { session1 := 43200000, session2 := 129600000 } (by decide) (by decide)⟩

/-- C5: on the README reference fixture the search returns exactly 11
pairs; no pair puts `session2` on 2024-08-28 with `session1` before
2024-08-21 (the more-than-seven-day gap from 08-19 is excluded), while the
exactly-seven-day pairing 08-21 → 08-28 is included. -/
theorem findAssessmentSlots_fixture :
    (((findAssessmentSlots fixturePatient [fixtureClinician]).map
      fun r => r.availableSlotPairs).flatten.length = 11)
    ∧ ((((findAssessmentSlots fixturePatient [fixtureClinician]).map
      fun r => r.availableSlotPairs).flatten.all fun pr =>
        getStartOfDay pr.session2 ≠ 1724803200000 ∨ 1724198400000 ≤ pr.session1) = true)
    ∧ ({ session1 := 1724241600000, session2 := 1724847300000 } : AssessmentSlotPair)
        ∈ ((findAssessmentSlots fixturePatient [fixtureClinician]).map
          fun r => r.availableSlotPairs).flatten := by
  refine ⟨by decide, by decide, by decide⟩

lemma assessment_clinician_cases (p : Patient) (c : Clinician) :
    (findAssessmentSlotsForClinician p c = none
      ∧ (c.clinicianType = "PSYCHOLOGIST" → isClinicianEligible c p = true →
          naiveAssessmentPairs c = []))
    ∨ (findAssessmentSlotsForClinician p c
          = some { clinician := c, availableSlotPairs := validPairsOf c }
        ∧ naiveAssessmentPairs c ≠ [] ∧ c.clinicianType = "PSYCHOLOGIST"
        ∧ isClinicianEligible c p = true
        ∧ ∀ pr, pr ∈ validPairsOf c ↔ pr ∈ naiveAssessmentPairs c) := by
  by_cases h1 : c.clinicianType = "PSYCHOLOGIST"
  case neg =>
    left
    refine ⟨?_, fun ha => absurd ha h1⟩
    unfold findAssessmentSlotsForClinician
    rw [if_pos h1]
  case pos =>
    by_cases h2 : isClinicianEligible c p = true
    case neg =>
      left
      refine ⟨?_, fun _ hb => absurd hb h2⟩
      unfold findAssessmentSlotsForClinician
      rw [if_neg (not_not_intro h1), if_pos (by simp [Bool.not_eq_true] at h2 ⊢; exact h2)]
    case pos =>
      by_cases h3 : naiveAssessmentPairs c = []
      · left
        refine ⟨?_, fun _ _ => h3⟩
        unfold findAssessmentSlotsForClinician
        rw [if_neg (not_not_intro h1), if_neg (by simp [h2])]
        split_ifs with h4 h5 h6
        · rfl
        · rfl
        · rfl
        · exfalso
          have hne : validPairsOf c ≠ [] := by
            intro hnil
            rw [List.isEmpty_iff] at h6
            exact h6 hnil
          obtain ⟨pr, hpr⟩ := List.exists_mem_of_ne_nil _ hne
          have hmem := (mem_naiveAssessmentPairs).mpr ((mem_validPairsOf).mp hpr)
          rw [h3] at hmem
          exact absurd hmem (List.not_mem_nil pr)
      · right
        obtain ⟨pr0, hpr0⟩ := List.exists_mem_of_ne_nil _ h3
        have hvalid0 := (mem_naiveAssessmentPairs).mp hpr0
        have hv0 : pr0 ∈ validPairsOf c := (mem_validPairsOf).mpr hvalid0
        have hlen2 := validAssessmentPair_two_slots hvalid0
        have hdays2 := validAssessmentPair_two_days hvalid0
        refine ⟨?_, h3, h1, h2,
          fun pr => (mem_validPairsOf).trans (mem_naiveAssessmentPairs).symm⟩
        unfold findAssessmentSlotsForClinician
        rw [if_neg (not_not_intro h1), if_neg (by simp [h2]),
          if_neg (by omega), if_neg (by omega), if_neg ?_]
        rw [List.isEmpty_iff]
        intro hnil
        rw [hnil] at hv0
        exact absurd hv0 (List.not_mem_nil _)

/-- C6: for every patient and roster the optimised search — day grouping,
headroom pre-filter, ascending day sort and early termination beyond seven
days — emits, clinician for clinician, exactly the same set of pairs as the
spec's naive all-pairs scan over cross-day slot pairs at most seven days
apart filtered by `canAccommodateAppointments` on the pair. -/
theorem findAssessmentSlots_refines_naive (p : Patient) (cs : List Clinician) :
    List.Forall₂ (fun r1 r2 => r1.clinician = r2.clinician
      ∧ ∀ pr, pr ∈ r1.availableSlotPairs ↔ pr ∈ r2.availableSlotPairs)
      (findAssessmentSlots p cs) (naiveFindAssessmentSlots p cs) := by
  induction cs with
  | nil => exact List.Forall₂.nil
  | cons c rest ih =>
    rcases assessment_clinician_cases p c with ⟨hnone, himp⟩ | ⟨hsome, hne, h1, h2, hiff⟩
    · rw [show findAssessmentSlots p (c :: rest) = findAssessmentSlots p rest from by
        simp [findAssessmentSlots, hnone]]
      have hcond : ¬ (c.clinicianType = "PSYCHOLOGIST"
          ∧ isClinicianEligible c p = true ∧ naiveAssessmentPairs c ≠ []) := by
        rintro ⟨ha, hb, hc⟩
        exact hc (himp ha hb)
      rw [show naiveFindAssessmentSlots p (c :: rest)
          = naiveFindAssessmentSlots p rest from by
        simp only [naiveFindAssessmentSlots]
        rw [if_neg hcond]]
      exact ih
    · rw [show findAssessmentSlots p (c :: rest)
          = { clinician := c, availableSlotPairs := validPairsOf c }
              :: findAssessmentSlots p rest from by
        simp [findAssessmentSlots, hsome]]
      rw [show naiveFindAssessmentSlots p (c :: rest)
          = { clinician := c, availableSlotPairs := naiveAssessmentPairs c }
              :: naiveFindAssessmentSlots p rest from by
        simp only [naiveFindAssessmentSlots]
        rw [if_pos ⟨h1, h2, hne⟩]]
      exact List.Forall₂.cons ⟨rfl, hiff⟩ ih

lemma findTherapySlotsForClinician_clinician {p : Patient} {c : Clinician}
    {r : TherapistAvailability} (h : findTherapySlotsForClinician p c = some r) :
    r.clinician = c := by
  unfold findTherapySlotsForClinician at h
  split_ifs at h
  cases h
  rfl

/-- C10: both searches iterate the roster in order and append per-clinician
results, so the clinicians named in the results form a sublist of the input
roster — they appear in the same relative order as in the roster. -/
theorem finders_preserve_roster_order (p : Patient) (cs : List Clinician) :
    (((findAssessmentSlots p cs).map fun r => r.clinician).Sublist cs)
    ∧ (((findTherapySlots p cs).map fun r => r.clinician).Sublist cs) := by
  constructor
  · induction cs with
    | nil => exact List.Sublist.refl []
    | cons c rest ih =>
      cases hc : findAssessmentSlotsForClinician p c with
      | some r =>
        rw [show findAssessmentSlots p (c :: rest)
            = r :: findAssessmentSlots p rest from by
          simp [findAssessmentSlots, hc]]
        rw [List.map_cons, (findAssessmentSlotsForClinician_eq_some hc).1]
        exact ih.cons₂ c
      | none =>
        rw [show findAssessmentSlots p (c :: rest) = findAssessmentSlots p rest from by
          simp [findAssessmentSlots, hc]]
        exact ih.cons c
  · induction cs with
    | nil => exact List.Sublist.refl []
    | cons c rest ih =>
      cases hc : findTherapySlotsForClinician p c with
      | some r =>
        rw [show findTherapySlots p (c :: rest) = r :: findTherapySlots p rest from by
          simp [findTherapySlots, hc]]
        rw [List.map_cons, findTherapySlotsForClinician_clinician hc]
        exact ih.cons₂ c
      | none =>
        rw [show findTherapySlots p (c :: rest) = findTherapySlots p rest from by
          simp [findTherapySlots, hc]]
        exact ih.cons c
